import Mathlib

/-!
Verification development for the KarnAI card IR generator
(`src/services/card-ir-generator/card_ir_generator.py`).

Card texts are embedded as `List Char`; the Python regular-expression
scans are embedded as executable scanning functions with the same
leftmost / greedy / lazy semantics as the patterns in the source.
-/

namespace KarnAI

/-- Character list of a string literal. -/
def str (s : String) : List Char := s.data

attribute [reducible] str

/-- ASCII case mapping; embeds Python `str.lower()` over the ASCII range
that the card texts and rule tables use. -/
def lowerChar (c : Char) : Char :=
  if 'A' ≤ c && c ≤ 'Z' then Char.ofNat (c.toNat + 32) else c

/-- Embeds Python `text.lower()`. -/
def lower (s : List Char) : List Char := s.map lowerChar

/-- Embeds Python substring membership `pat in text`. -/
def containsSub (pat : List Char) : List Char → Bool
  | [] => pat.isPrefixOf []
  | c :: rest => pat.isPrefixOf (c :: rest) || containsSub pat rest

/-- Word characters of the regex `\b` boundary (ASCII `\w`). -/
def isWordChar (c : Char) : Bool :=
  ('a' ≤ c && c ≤ 'z') || ('A' ≤ c && c ≤ 'Z') || ('0' ≤ c && c ≤ '9') || c = '_'

/-- Left context allows a `\b` boundary before a word character. -/
def boundaryBefore : Option Char → Bool
  | none => true
  | some c => !isWordChar c

/-- Right context allows a `\b` boundary after the matched word. -/
def boundaryAfter : List Char → Bool
  | [] => true
  | c :: _ => !isWordChar c

/-- Whole word `w` at the head of `s` (prefix match plus a trailing boundary). -/
def wordHere (w s : List Char) : Bool :=
  w.isPrefixOf s && boundaryAfter (s.drop w.length)

/-- Scan for a whole-word occurrence, carrying the previous character for the
left `\b` boundary. -/
def hasWordAux (w : List Char) : Option Char → List Char → Bool
  | _, [] => false
  | prev, c :: rest =>
    (boundaryBefore prev && wordHere w (c :: rest)) || hasWordAux w (some c) rest

/-- Whole-word search, embedding `re.search(r'\b<w>\b', s)` for a word `w`. -/
def hasWord (w s : List Char) : Bool := hasWordAux w none s

/-- Embeds `re.search(r'(?i)\b(tap|t)\b', text)` (line 87 of the source):
case-insensitivity is realised by searching the lowercased text. -/
def tapSearch (text : List Char) : Bool :=
  hasWord (str "tap") (lower text) || hasWord (str "t") (lower text)

/-- Character class `[WUBRG\d]` of the mana-cost pattern. -/
def isManaChar (c : Char) : Bool :=
  c = 'W' || c = 'U' || c = 'B' || c = 'R' || c = 'G' || ('0' ≤ c && c ≤ '9')

/-- Fuelled scan embedding `re.findall(r'\{([WUBRG\d]+)\}', text)`: at each
`{` take the maximal run of class characters; the match succeeds only when the
run is non-empty and immediately followed by `}`; scanning resumes after the
`}` on success and after the `{` on failure. -/
def manaFindallAux : Nat → List Char → List (List Char)
  | 0, _ => []
  | _, [] => []
  | fuel + 1, c :: rest =>
    if c = '{' then
      if (rest.takeWhile isManaChar).isEmpty then manaFindallAux fuel rest
      else
        match rest.drop (rest.takeWhile isManaChar).length with
        | '}' :: after => rest.takeWhile isManaChar :: manaFindallAux fuel after
        | _ => manaFindallAux fuel rest
    else manaFindallAux fuel rest

/-- All captured mana tokens, in order of appearance. -/
def manaFindall (text : List Char) : List (List Char) :=
  manaFindallAux text.length text

/-- Cost entry; the field `kind` embeds the dictionary key `"type"` of the
source. -/
structure Cost where
  kind : List Char
  value : List Char
deriving DecidableEq

/-- Embeds `AbilityParser._extract_costs` (lines 77-90). -/
def extract_costs (text : List Char) : List Cost :=
  (manaFindall text).map (fun m => ⟨str "mana", '{' :: m ++ ['}']⟩)
    ++ (if tapSearch text then [⟨str "tap", str "Tap"⟩] else [])

/-- Largest start offset `j ≤ n` at which `b` is a prefix of `tail.drop j`;
this is the backtracking of a greedy `.*` followed by the literal `b`. -/
def lastPrefixPos (b tail : List Char) : Nat → Option Nat
  | 0 => if b.isPrefixOf tail then some 0 else none
  | n + 1 =>
    if b.isPrefixOf (tail.drop (n + 1)) then some (n + 1) else lastPrefixPos b tail n

/-- Match of the pattern `<a>.*<b>` anchored at the start of `s`: `a` must be
a prefix, then `.*` greedily spans non-newline characters up to the furthest
occurrence of `b`. Returns the matched span. -/
def greedyMatchHere (a b s : List Char) : Option (List Char) :=
  if a.isPrefixOf s then
    let tail := s.drop a.length
    match lastPrefixPos b tail (tail.takeWhile (fun c => !(c == '\n'))).length with
    | some j => some (s.take (a.length + j + b.length))
    | none => none
  else none

/-- Embeds `re.search` for the pattern `<a>.*<b>`: leftmost start position,
greedy `.*`. -/
def searchDotStar (a b : List Char) : List Char → Option (List Char)
  | [] => greedyMatchHere a b []
  | c :: rest =>
    match greedyMatchHere a b (c :: rest) with
    | some m => some m
    | none => searchDotStar a b rest

/-- The shapes of the three trigger templates of the source. -/
inductive TriggerRE
  | dotStar (a b : List Char)
  | literal (lit : List Char)

/-- Embeds `re.search` for a trigger template, returning the matched span
(`group(0)` in the source). -/
def reSearch : TriggerRE → List Char → Option (List Char)
  | .dotStar a b, s => searchDotStar a b s
  | .literal l, s => if containsSub l s then some l else none

/-- The `trigger_patterns` table of `_extract_triggers` (lines 96-100). -/
def trigger_patterns : List (TriggerRE × List Char) :=
  [(.dotStar (str "when ") (str " enters"), str "when"),
   (.dotStar (str "whenever ") (str " dies"), str "whenever"),
   (.literal (str "at the beginning"), str "at")]

/-- Trigger entry of a parsed ability. -/
structure Trigger where
  condition : List Char
  timing : List Char
deriving DecidableEq

/-- Embeds `AbilityParser._extract_triggers` (lines 92-109): each template is
tested independently against the lowercased text; a matching template
contributes its first matched span. -/
def extract_triggers (text : List Char) : List Trigger :=
  trigger_patterns.filterMap
    (fun p => (reSearch p.1 (lower text)).map (fun m => ⟨m, p.2⟩))

/-- ASCII digit test (`\d`). -/
def isDigit (c : Char) : Bool := '0' ≤ c && c ≤ '9'

/-- Decimal value of a digit run (Python `int(...)`). -/
def digitsToNat (l : List Char) : Nat :=
  l.foldl (fun acc c => acc * 10 + (c.toNat - 48)) 0

/-- Lazy `(.+?)(?:\.|$)` continuation: `acc` holds the reversed characters
consumed so far; at each position the terminator `\.` is tried first, then `$`
(end of string, or just before a trailing newline), and otherwise one more
non-newline character is consumed. Returns the capture and the rest of the
input after the match. -/
def lazyTargetGo (acc : List Char) : List Char → Option (List Char × List Char)
  | '.' :: rest => some (acc.reverse, rest)
  | [] => some (acc.reverse, [])
  | ['\n'] => some (acc.reverse, ['\n'])
  | c :: rest => if c = '\n' then none else lazyTargetGo (c :: acc) rest

/-- Match of `deals (\d+) damage to (.+?)(?:\.|$)` anchored at the start of
`s`; returns the damage value, the captured target and the rest of the input
after the match. -/
def damageMatchHere (s : List Char) : Option (Nat × List Char × List Char) :=
  if (str "deals ").isPrefixOf s then
    let rest := s.drop 6
    let ds := rest.takeWhile isDigit
    if ds.isEmpty then none
    else if (str " damage to ").isPrefixOf (rest.drop ds.length) then
      match rest.drop (ds.length + 11) with
      | [] => none
      | c :: r2 =>
        if c = '\n' then none
        else
          match lazyTargetGo [c] r2 with
          | some (tgt, remaining) => some (digitsToNat ds, tgt, remaining)
          | none => none
    else none
  else none

/-- Fuelled scan embedding `re.findall` for the damage pattern: leftmost
non-overlapping matches, scanning resuming after each match. -/
def damageFindallAux : Nat → List Char → List (Nat × List Char)
  | 0, _ => []
  | _, [] => []
  | fuel + 1, c :: rest =>
    match damageMatchHere (c :: rest) with
    | some (v, tgt, remaining) => (v, tgt) :: damageFindallAux fuel remaining
    | none => damageFindallAux fuel rest

/-- All damage matches of a text. -/
def damageFindall (text : List Char) : List (Nat × List Char) :=
  damageFindallAux text.length text

/-- Python whitespace, for `str.strip()`. -/
def isSpace (c : Char) : Bool :=
  c = ' ' || c = '\t' || c = '\n' || c = '\r' || c = '\x0b' || c = '\x0c'

/-- Embeds Python `str.strip()`. -/
def stripChars (l : List Char) : List Char :=
  ((l.dropWhile isSpace).reverse.dropWhile isSpace).reverse

/-- Effect entry; the field `kind` embeds the dictionary key `"type"`, and
`value` the integer damage amount (always from a `\d+` capture, hence a
natural number). -/
structure Effect where
  kind : List Char
  targets : List (List Char)
  value : Nat
deriving DecidableEq

/-- Embeds `AbilityParser._extract_effects` (lines 111-124). -/
def extract_effects (text : List Char) : List Effect :=
  (damageFindall (lower text)).map (fun p => ⟨str "damage", [stripChars p.2], p.1⟩)

/-- Trigger substrings of `_classify_ability_type`. -/
def triggerWords : List (List Char) :=
  [str "when", str "whenever", str "at the beginning"]

/-- Keyword substrings of `_classify_ability_type`. -/
def keywordWords : List (List Char) :=
  [str "flying", str "trample", str "haste", str "vigilance"]

/-- Embeds `AbilityParser._classify_ability_type` (lines 66-75). -/
def classify_ability_type (text : List Char) : List Char :=
  if containsSub (str ":") text then str "activated"
  else if triggerWords.any (fun t => containsSub t (lower text)) then str "triggered"
  else if keywordWords.any (fun k => containsSub k (lower text)) then str "keyword"
  else str "static"

/-- The `parsed_components` sub-record of an ability. -/
structure ParsedComponents where
  costs : List Cost
  triggers : List Trigger
  effects : List Effect
deriving DecidableEq

/-- A parsed ability. -/
structure Ability where
  ability_id : List Char
  ability_type : List Char
  raw_text : List Char
  parsed_components : ParsedComponents
deriving DecidableEq

/-- Embeds `AbilityParser.parse_ability` (lines 49-64). -/
def parse_ability (text ability_id : List Char) : Ability :=
  ⟨ability_id, classify_ability_type text, text,
   ⟨extract_costs text, extract_triggers text, extract_effects text⟩⟩

/-- Canonical card metadata produced by `_extract_metadata`; the numeric
`cmc` field is embedded as a rational number. -/
structure CardMetadata where
  name : List Char
  oracle_id : List Char
  scryfall_id : List Char
  mana_cost : List Char
  cmc : ℚ
  type_line : List Char
  oracle_text : List Char
  colors : List (List Char)
  color_identity : List (List Char)
  keywords : List (List Char)
  power : Option (List Char)
  toughness : Option (List Char)
  loyalty : Option (List Char)
deriving DecidableEq

/-- The `card_data` dictionary handed to the tagger in
`convert_scryfall_to_ir` (line 243). -/
structure CardData where
  card_metadata : CardMetadata
  parsed_abilities : List Ability

/-- Tagged matcher variant of the rule table: an ordered substring list, or a
predicate over the card data (the lambda entry of `TAG_RULES`). -/
inductive Matcher
  | substrings (pats : List (List Char))
  | predicate (p : CardData → Bool)

instance : Inhabited Matcher := ⟨Matcher.substrings []⟩

/-- Whether a matcher fires against the lowercased oracle text (substring
rules) or the card data (predicate rules). -/
def matcherFires (m : Matcher) (card : CardData) (oracle : List Char) : Bool :=
  match m with
  | .substrings pats => pats.any (fun p => containsSub p oracle)
  | .predicate p => p card

/-- Confidence by matcher kind: 0.9 for substring rules, 0.8 for predicate
rules. -/
def matcherConfidence : Matcher → ℚ
  | .substrings _ => 9 / 10
  | .predicate _ => 4 / 5

/-- Embeds `StrategicTagger.TAG_RULES` (lines 130-147). -/
def TAG_RULES : List (List Char × List (List Char × Matcher)) :=
  [(str "interaction",
    [(str "removal",
      .substrings [str "deals", str "damage", str "destroy", str "exile", str "return to hand"]),
     (str "counterspell", .substrings [str "counter target"]),
     (str "protection", .substrings [str "prevent", str "indestructible", str "hexproof"])]),
   (str "tempo",
    [(str "low_cost_interaction", .predicate (fun card => decide (card.card_metadata.cmc ≤ 2))),
     (str "bounce", .substrings [str "return", str "bounce"])]),
   (str "value",
    [(str "card_draw", .substrings [str "draw", str "cards"]),
     (str "tutoring", .substrings [str "search", str "library"])]),
   (str "ramp",
    [(str "mana_acceleration", .substrings [str "add mana", str "lands", str "mana cost"])])]

/-- Hierarchical tag entry. -/
structure HTag where
  path : List (List Char)
  confidence : ℚ
deriving DecidableEq

/-- Embeds insertion into the `flattened_tags` set: duplicates collapse, and
the insertion order of distinct tags is kept as the list order. -/
def insertTag (l : List (List Char)) (x : List Char) : List (List Char) :=
  if x ∈ l then l else l ++ [x]

/-- One subcategory rule step of the tag loop (lines 157-171). -/
def applySub (card : CardData) (oracle : List Char) (cat : List Char)
    (acc : List HTag × List (List Char)) (sub : List Char × Matcher) :
    List HTag × List (List Char) :=
  if matcherFires sub.2 card oracle then
    (acc.1 ++ [⟨[cat, sub.1], matcherConfidence sub.2⟩],
     insertTag (insertTag acc.2 cat) sub.1)
  else acc

/-- One category of the tag loop. -/
def applyCat (card : CardData) (oracle : List Char)
    (acc : List HTag × List (List Char)) (cat : List Char × List (List Char × Matcher)) :
    List HTag × List (List Char) :=
  cat.2.foldl (applySub card oracle cat.1) acc

/-- The full tag-rule loop over a rule table. -/
def applyRules (rules : List (List Char × List (List Char × Matcher)))
    (card : CardData) (oracle : List Char) : List HTag × List (List Char) :=
  rules.foldl (applyCat card oracle) ([], [])

/-- The tag-rule loop of `generate_tags` over `TAG_RULES`. -/
def applyTagRules (card : CardData) (oracle : List Char) :
    List HTag × List (List Char) :=
  applyRules TAG_RULES card oracle

/-- Embeds `StrategicTagger._generate_archetype_hints` (lines 186-202). -/
def generate_archetype_hints (card : CardData) : List (List Char) :=
  (if card.card_metadata.cmc ≤ 2 then [str "aggro"] else [])
  ++ (if 6 ≤ card.card_metadata.cmc then [str "control"] else [])
  ++ (if containsSub (str "instant") (lower card.card_metadata.type_line)
        || containsSub (str "flash") (lower card.card_metadata.oracle_text)
      then [str "tempo"] else [])
  ++ (if [str "combo", str "infinite", str "win the game"].any
          (fun k => containsSub k (lower card.card_metadata.oracle_text))
      then [str "combo"] else [])

/-- Embeds `StrategicTagger._estimate_card_advantage` (lines 215-223). -/
def estimate_card_advantage (oracle_text : List Char) : Int :=
  if containsSub (str "draw") oracle_text then 1
  else if containsSub (str "search") oracle_text then 0
  else if containsSub (str "deals") oracle_text || containsSub (str "damage") oracle_text
         || containsSub (str "destroy") oracle_text then -1
  else 0

/-- Reward-shaping hints. -/
structure RewardHints where
  immediate_impact : Bool
  delayed_impact : Bool
  symmetrical : Bool
  card_advantage : Int
deriving DecidableEq

/-- Embeds `StrategicTagger._generate_reward_hints` (lines 204-213); the
`oracle_text` argument is the lowercased oracle text, as at the call site. -/
def generate_reward_hints (card : CardData) (oracle_text : List Char) : RewardHints :=
  ⟨containsSub (str "instant") (lower card.card_metadata.type_line)
     || containsSub (str "flash") oracle_text,
   containsSub (str "enchantment") (lower card.card_metadata.type_line)
     || containsSub (str "artifact") (lower card.card_metadata.type_line),
   containsSub (str "each player") oracle_text || containsSub (str "all players") oracle_text,
   estimate_card_advantage oracle_text⟩

/-- The strategic tag set. -/
structure StrategicTags where
  hierarchical_tags : List HTag
  flattened_tags : List (List Char)
  archetype_hints : List (List Char)
  reward_hints : RewardHints
deriving DecidableEq

/-- Embeds `StrategicTagger.generate_tags` (lines 149-184). -/
def generate_tags (card : CardData) : StrategicTags :=
  let oracle := lower card.card_metadata.oracle_text
  let rules := applyTagRules card oracle
  ⟨rules.1, rules.2, generate_archetype_hints card, generate_reward_hints card oracle⟩

/-- Raw Scryfall input record: every consumed field is optional, and the
`legalities` map is an association list keyed by format name. -/
structure ScryfallData where
  name : Option (List Char)
  oracle_id : Option (List Char)
  id : Option (List Char)
  mana_cost : Option (List Char)
  cmc : Option ℚ
  type_line : Option (List Char)
  oracle_text : Option (List Char)
  colors : Option (List (List Char))
  color_identity : Option (List (List Char))
  keywords : Option (List (List Char))
  power : Option (List Char)
  toughness : Option (List Char)
  loyalty : Option (List Char)
  legalities : List (List Char × List Char)
deriving DecidableEq

/-- Embeds Python `dict.get(key, default)` on the legalities map. -/
def dictGet (d : List (List Char × List Char)) (key dflt : List Char) : List Char :=
  match d.find? (fun p => p.1 == key) with
  | some p => p.2
  | none => dflt

/-- Embeds `CardIRGenerator._extract_metadata` (lines 262-278). -/
def extract_metadata (data : ScryfallData) : CardMetadata :=
  ⟨data.name.getD [], data.oracle_id.getD [], data.id.getD [], data.mana_cost.getD [],
   data.cmc.getD 0, data.type_line.getD [], data.oracle_text.getD [],
   data.colors.getD [], data.color_identity.getD [], data.keywords.getD [],
   data.power, data.toughness, data.loyalty⟩

/-- Embeds Python `str.replace(' ', '_')`. -/
def pythonReplaceSpace (l : List Char) : List Char :=
  l.map (fun c => if c = ' ' then '_' else c)

/-- Embeds `CardIRGenerator._parse_abilities` (lines 280-290); note the
`'unknown'` default for an absent name. -/
def parse_abilities (data : ScryfallData) : List Ability :=
  let oracle_text := data.oracle_text.getD []
  if oracle_text.isEmpty then []
  else
    [parse_ability oracle_text
      (pythonReplaceSpace (lower (data.name.getD (str "unknown"))) ++ str "_main_effect")]

/-- Format legality record. -/
structure FormatLegality where
  commander : List Char
  can_be_commander : Bool
deriving DecidableEq

/-- Embeds `CardIRGenerator._extract_legality` (lines 292-300). -/
def extract_legality (data : ScryfallData) : FormatLegality :=
  ⟨dictGet data.legalities (str "commander") (str "not_legal"),
   containsSub (str "legendary") (lower (data.type_line.getD []))
     && containsSub (str "creature") (lower (data.type_line.getD []))⟩

/-- Battlefield-permitting type substrings of `_extract_gameplay_metadata`. -/
def battlefieldTypes : List (List Char) :=
  [str "creature", str "artifact", str "enchantment", str "planeswalker"]

/-- Stack-excluding type substrings of `_extract_gameplay_metadata`. -/
def stackExcludedTypes : List (List Char) := [str "instant", str "sorcery"]

/-- Gameplay metadata record. -/
structure GameplayMetadata where
  zones : List (List Char)
  enters_tapped : Bool
  has_abilities_in_graveyard : Bool
deriving DecidableEq

/-- Embeds `CardIRGenerator._extract_gameplay_metadata` (lines 302-319). -/
def extract_gameplay_metadata (data : ScryfallData) : GameplayMetadata :=
  let type_line := lower (data.type_line.getD [])
  let oracle_text := lower (data.oracle_text.getD [])
  ⟨[str "hand"]
     ++ (if battlefieldTypes.any (fun t => containsSub t type_line)
         then [str "battlefield"] else [])
     ++ [str "graveyard", str "exile", str "library"]
     ++ (if stackExcludedTypes.any (fun t => containsSub t type_line)
         then [] else [str "stack"]),
   containsSub (str "enters tapped") oracle_text
     || containsSub (str "enters the battlefield tapped") oracle_text,
   containsSub (str "graveyard") oracle_text
     && (containsSub (str "activate") oracle_text || containsSub (str ":") oracle_text)⟩

/-- The full output record. -/
structure CardIR where
  ir_version : List Char
  generated_at : List Char
  card_metadata : CardMetadata
  parsed_abilities : List Ability
  strategic_tags : StrategicTags
  format_legality : FormatLegality
  gameplay_metadata : GameplayMetadata
deriving DecidableEq

/-- Embeds `CardIRGenerator.convert_scryfall_to_ir` (lines 233-260); the
current UTC time is threaded in as the `now` parameter, and `generated_at`
is `now` with the trailing `Z` of the source appended. -/
def convert_scryfall_to_ir (data : ScryfallData) (now : List Char) : CardIR :=
  let card_metadata := extract_metadata data
  let parsed := parse_abilities data
  let card : CardData := ⟨card_metadata, parsed⟩
  ⟨str "1.0.0", now ++ ['Z'], card_metadata, parsed,
   generate_tags card, extract_legality data, extract_gameplay_metadata data⟩

/-- A record with every optional field absent and no legalities. -/
def emptyCard : ScryfallData :=
  ⟨none, none, none, none, none, none, none, none, none, none, none, none, none, []⟩

/-- The Lightning Bolt record of the specification and the test suite. -/
def lightningBolt : ScryfallData :=
  { emptyCard with
    name := some (str "Lightning Bolt"),
    mana_cost := some (str "{R}"),
    cmc := some 1,
    type_line := some (str "Instant"),
    oracle_text := some (str "Lightning Bolt deals 3 damage to any target."),
    colors := some [str "R"],
    legalities := [(str "commander", str "legal")] }

/-- A record with oracle text but no name field. -/
def noNameCard : ScryfallData :=
  { emptyCard with oracle_text := some (str "x") }

/-- A record whose type line is exactly `Instant`. -/
def instantCard : ScryfallData :=
  { emptyCard with type_line := some (str "Instant") }

/-- A record whose type line is exactly `Creature`. -/
def creatureCard : ScryfallData :=
  { emptyCard with type_line := some (str "Creature") }

/-- The card-advantage priority chain as the specification words it:
first matching rule wins, in the order draw, search, then
deals / damage / destroy. -/
def specCardAdvantage (text : List Char) : Int :=
  if containsSub (str "draw") text = true then 1
  else if containsSub (str "search") text = true then 0
  else if containsSub (str "deals") text = true ∨ containsSub (str "damage") text = true
         ∨ containsSub (str "destroy") text = true then -1
  else 0

/-- The ability-type decision as the specification words it: colon, then the
trigger substrings, then the keyword substrings, else static. -/
def specClassify (text : List Char) : List Char :=
  if containsSub (str ":") text = true then str "activated"
  else if containsSub (str "when") (lower text) = true
        ∨ containsSub (str "whenever") (lower text) = true
        ∨ containsSub (str "at the beginning") (lower text) = true then str "triggered"
  else if containsSub (str "flying") (lower text) = true
        ∨ containsSub (str "trample") (lower text) = true
        ∨ containsSub (str "haste") (lower text) = true
        ∨ containsSub (str "vigilance") (lower text) = true then str "keyword"
  else str "static"

/-- Declarative whole-word match of `w` at position `i` of `s`: `w` occurs at
`i`, the preceding character (if any) is a non-word character, and so is the
following one. -/
def wordMatchAt (s w : List Char) (i : Nat) : Prop :=
  w.isPrefixOf (s.drop i) = true
  ∧ (i = 0 ∨ ∃ c, s[i - 1]? = some c ∧ isWordChar c = false)
  ∧ (∀ c, s[i + w.length]? = some c → isWordChar c = false)

/-- Declarative form of the tap-cost condition: the lowercased text contains
`tap` or `t` as a whole word. -/
def hasTapWordSpec (text : List Char) : Prop :=
  ∃ i, wordMatchAt (lower text) (str "tap") i ∨ wordMatchAt (lower text) (str "t") i

/-- Declarative match of the pattern `<a>.*<b>` in `s` with the literal `a`
at position `i` and the literal `b` at position `j`: the characters spanned
by `.*` are the ones strictly between the two literals and none of them is a
newline. -/
def matchSpanAt (a b s : List Char) (i j : Nat) : Prop :=
  a.isPrefixOf (s.drop i) = true
  ∧ i + a.length ≤ j
  ∧ b.isPrefixOf (s.drop j) = true
  ∧ ∀ k, i + a.length ≤ k → k < j → s[k]? ≠ some '\n'

/-- Declarative first greedy match of `<a>.*<b>` in `s`: a match at the
leftmost possible start position, with `.*` spanning as far as possible, and
`m` the matched span. -/
def firstGreedyMatch (a b s m : List Char) : Prop :=
  ∃ i j, matchSpanAt a b s i j
    ∧ m = (s.drop i).take (j + b.length - i)
    ∧ (∀ i' j', matchSpanAt a b s i' j' → i ≤ i')
    ∧ (∀ j', matchSpanAt a b s i j' → j' ≤ j)

/-! ## Theorems -/

/-- C1: for the Lightning Bolt record, the full conversion yields exactly one
parsed ability of type static with no costs, no triggers, and the single
damage-3 effect on `any target`; the flattened tags include interaction and
removal; the archetype hints include aggro and exclude control; the reward
hints have immediate impact and card advantage -1; and the commander
legality is legal with `can_be_commander` false. -/
theorem lightning_bolt_conversion :
    ((convert_scryfall_to_ir lightningBolt []).parsed_abilities.map
        (fun a => (a.ability_type, a.parsed_components.costs, a.parsed_components.triggers,
                   a.parsed_components.effects))
      = [(str "static", [], [], [⟨str "damage", [str "any target"], 3⟩])])
    ∧ str "interaction" ∈ (convert_scryfall_to_ir lightningBolt []).strategic_tags.flattened_tags
    ∧ str "removal" ∈ (convert_scryfall_to_ir lightningBolt []).strategic_tags.flattened_tags
    ∧ str "aggro" ∈ (convert_scryfall_to_ir lightningBolt []).strategic_tags.archetype_hints
    ∧ str "control" ∉ (convert_scryfall_to_ir lightningBolt []).strategic_tags.archetype_hints
    ∧ (convert_scryfall_to_ir lightningBolt []).strategic_tags.reward_hints.immediate_impact = true
    ∧ (convert_scryfall_to_ir lightningBolt []).strategic_tags.reward_hints.card_advantage = -1
    ∧ (convert_scryfall_to_ir lightningBolt []).format_legality.commander = str "legal"
    ∧ (convert_scryfall_to_ir lightningBolt []).format_legality.can_be_commander = false := by
  decide

/-- C2 counterexample: for a record with oracle text present but no name
field, the parsed ability id is `unknown_main_effect`, not the
`_main_effect` that an empty-string name default would give. -/
theorem ability_id_empty_default_refuted :
    (parse_abilities noNameCard).map (fun a => a.ability_id) = [str "unknown_main_effect"]
    ∧ str "unknown_main_effect"
        ≠ pythonReplaceSpace (lower (noNameCard.name.getD [])) ++ str "_main_effect" := by
  decide

/-- C2 as amended: for every record with non-empty oracle text, the single
parsed ability id is the lowercased name with spaces replaced by underscores
followed by `_main_effect`, where the name defaults to `unknown` (not the
empty string) when absent. -/
theorem ability_id_unknown_default (data : ScryfallData)
    (h : data.oracle_text.getD [] ≠ []) :
    (parse_abilities data).map (fun a => a.ability_id)
      = [pythonReplaceSpace (lower (data.name.getD (str "unknown"))) ++ str "_main_effect"] := by
  unfold parse_abilities
  cases hd : data.oracle_text.getD [] with
  | nil => exact absurd hd h
  | cons c rest => simp [hd, parse_ability]

/-- Witness for the amended C2 at the Lightning Bolt record. -/
theorem ability_id_unknown_default_witness :
    (parse_abilities lightningBolt).map (fun a => a.ability_id)
      = [pythonReplaceSpace (lower (lightningBolt.name.getD (str "unknown")))
          ++ str "_main_effect"] :=
  ability_id_unknown_default lightningBolt (by decide)

/-- C4: the card-advantage estimate follows the priority chain of the
specification (draw, then search, then deals / damage / destroy), and a text
containing both draw and damage resolves to 1. -/
theorem card_advantage_priority (text : List Char) :
    estimate_card_advantage text = specCardAdvantage text
    ∧ (containsSub (str "draw") text = true ∧ containsSub (str "damage") text = true →
        estimate_card_advantage text = 1) := by
  constructor
  · unfold estimate_card_advantage specCardAdvantage
    by_cases h1 : containsSub (str "draw") text = true <;>
      by_cases h2 : containsSub (str "search") text = true <;>
        simp [h1, h2, or_assoc]
  · intro h
    unfold estimate_card_advantage
    simp [h.1]

/-- Witness for C4 on a text containing both draw and damage. -/
theorem card_advantage_priority_witness :
    estimate_card_advantage (lower (str "Draw a card. It deals 2 damage.")) = 1 :=
  (card_advantage_priority (lower (str "Draw a card. It deals 2 damage."))).2
    ⟨by decide, by decide⟩

/-- C5: the ability-type classifier follows the strict priority of the
specification, and a text containing a colon is classified activated even
when it also contains trigger words. -/
theorem classify_priority (text : List Char) :
    classify_ability_type text = specClassify text
    ∧ (containsSub (str ":") text = true → classify_ability_type text = str "activated") := by
  constructor
  · unfold classify_ability_type specClassify triggerWords keywordWords
    by_cases h1 : containsSub (str ":") text = true <;> simp [h1, List.any]
  · intro h
    unfold classify_ability_type
    simp [h]

/-- Witness for C5 on a text containing both a colon and a trigger word. -/
theorem classify_priority_witness :
    classify_ability_type (str "Whenever night falls: do this") = str "activated" :=
  (classify_priority (str "Whenever night falls: do this")).2 (by decide)

/-- C9: the conversion is a pure function of the input record; two runs with
different timestamps agree on every field except `generated_at`, which is the
supplied timestamp with a trailing Z. -/
theorem conversion_deterministic (data : ScryfallData) (t1 t2 : List Char) :
    (convert_scryfall_to_ir data t1).card_metadata
        = (convert_scryfall_to_ir data t2).card_metadata
    ∧ (convert_scryfall_to_ir data t1).parsed_abilities
        = (convert_scryfall_to_ir data t2).parsed_abilities
    ∧ (convert_scryfall_to_ir data t1).strategic_tags
        = (convert_scryfall_to_ir data t2).strategic_tags
    ∧ (convert_scryfall_to_ir data t1).format_legality
        = (convert_scryfall_to_ir data t2).format_legality
    ∧ (convert_scryfall_to_ir data t1).gameplay_metadata
        = (convert_scryfall_to_ir data t2).gameplay_metadata
    ∧ (convert_scryfall_to_ir data t1).ir_version
        = (convert_scryfall_to_ir data t2).ir_version
    ∧ (convert_scryfall_to_ir data t1).generated_at = t1 ++ ['Z'] :=
  ⟨rfl, rfl, rfl, rfl, rfl, rfl, rfl⟩

/-- C3: the zones sequence starts with hand; contains battlefield exactly
when the lowercased type line contains one of creature, artifact,
enchantment, planeswalker; always contains graveyard, exile, library; and
ends with stack exactly when the type line contains neither instant nor
sorcery. In particular an `Instant` type line yields zones without stack and
a `Creature` type line yields zones with both stack and battlefield. -/
theorem zones_rule (data : ScryfallData) :
    ((extract_gameplay_metadata data).zones.head? = some (str "hand"))
    ∧ (str "battlefield" ∈ (extract_gameplay_metadata data).zones ↔
        (containsSub (str "creature") (lower (data.type_line.getD [])) = true
         ∨ containsSub (str "artifact") (lower (data.type_line.getD [])) = true
         ∨ containsSub (str "enchantment") (lower (data.type_line.getD [])) = true
         ∨ containsSub (str "planeswalker") (lower (data.type_line.getD [])) = true))
    ∧ str "graveyard" ∈ (extract_gameplay_metadata data).zones
    ∧ str "exile" ∈ (extract_gameplay_metadata data).zones
    ∧ str "library" ∈ (extract_gameplay_metadata data).zones
    ∧ ((extract_gameplay_metadata data).zones.getLast? = some (str "stack") ↔
        (containsSub (str "instant") (lower (data.type_line.getD [])) = false
         ∧ containsSub (str "sorcery") (lower (data.type_line.getD [])) = false))
    ∧ (extract_gameplay_metadata instantCard).zones
        = [str "hand", str "graveyard", str "exile", str "library"]
    ∧ (extract_gameplay_metadata creatureCard).zones
        = [str "hand", str "battlefield", str "graveyard", str "exile", str "library",
           str "stack"] := by
  refine ⟨?_, ?_, ?_, ?_, ?_, ?_, by decide, by decide⟩ <;>
    by_cases hb : battlefieldTypes.any
        (fun t => containsSub t (lower (data.type_line.getD []))) = true <;>
      by_cases hs : stackExcludedTypes.any
          (fun t => containsSub t (lower (data.type_line.getD []))) = true <;>
        simp [battlefieldTypes, stackExcludedTypes, List.any] at hb hs <;>
          simp [extract_gameplay_metadata, battlefieldTypes, stackExcludedTypes,
                List.any, hb, hs] <;>
            first
              | tauto
              | (refine iff_of_false (by decide) ?_
                 rintro ⟨hi, hso⟩
                 rcases hs with h | h <;> simp [h] at hi hso)

/-- Membership in the deduplicating tag insertion. -/
theorem insertTag_mem (l : List (List Char)) (x y : List Char) :
    y ∈ insertTag l x ↔ y ∈ l ∨ y = x := by
  by_cases h : x ∈ l
  · rw [insertTag, if_pos h]
    constructor
    · exact Or.inl
    · rintro (h' | rfl)
      · exact h'
      · exact h
  · simp [insertTag, h]

/-- Membership in the hierarchical tags after one subcategory step. -/
theorem applySub_fst_mem (card : CardData) (oracle cat : List Char)
    (acc : List HTag × List (List Char)) (sub : List Char × Matcher) (t : HTag) :
    t ∈ (applySub card oracle cat acc sub).1 ↔
      t ∈ acc.1 ∨ (matcherFires sub.2 card oracle = true
        ∧ t = ⟨[cat, sub.1], matcherConfidence sub.2⟩) := by
  by_cases h : matcherFires sub.2 card oracle = true <;> simp [applySub, h]

/-- Membership in the flattened tags after one subcategory step. -/
theorem applySub_snd_mem (card : CardData) (oracle cat : List Char)
    (acc : List HTag × List (List Char)) (sub : List Char × Matcher) (x : List Char) :
    x ∈ (applySub card oracle cat acc sub).2 ↔
      x ∈ acc.2 ∨ (matcherFires sub.2 card oracle = true ∧ (x = cat ∨ x = sub.1)) := by
  by_cases h : matcherFires sub.2 card oracle = true <;>
    simp [applySub, h, insertTag_mem] <;> tauto

/-- Membership in the hierarchical tags after a category loop. -/
theorem applyCat_fst_mem (card : CardData) (oracle cat : List Char)
    (subs : List (List Char × Matcher)) (acc : List HTag × List (List Char)) (t : HTag) :
    t ∈ (subs.foldl (applySub card oracle cat) acc).1 ↔
      t ∈ acc.1 ∨ ∃ sub ∈ subs, matcherFires sub.2 card oracle = true
        ∧ t = ⟨[cat, sub.1], matcherConfidence sub.2⟩ := by
  induction subs generalizing acc with
  | nil => simp
  | cons s rest ih =>
    rw [List.foldl_cons, ih, applySub_fst_mem]
    constructor
    · rintro ((h | ⟨hf, hx⟩) | ⟨sub, hs, hf, hx⟩)
      · exact Or.inl h
      · exact Or.inr ⟨s, List.mem_cons_self _ _, hf, hx⟩
      · exact Or.inr ⟨sub, List.mem_cons_of_mem _ hs, hf, hx⟩
    · rintro (h | ⟨sub, hs, hf, hx⟩)
      · exact Or.inl (Or.inl h)
      · rcases List.mem_cons.mp hs with rfl | hs'
        · exact Or.inl (Or.inr ⟨hf, hx⟩)
        · exact Or.inr ⟨sub, hs', hf, hx⟩

/-- Membership in the flattened tags after a category loop. -/
theorem applyCat_snd_mem (card : CardData) (oracle cat : List Char)
    (subs : List (List Char × Matcher)) (acc : List HTag × List (List Char)) (x : List Char) :
    x ∈ (subs.foldl (applySub card oracle cat) acc).2 ↔
      x ∈ acc.2 ∨ ∃ sub ∈ subs, matcherFires sub.2 card oracle = true
        ∧ (x = cat ∨ x = sub.1) := by
  induction subs generalizing acc with
  | nil => simp
  | cons s rest ih =>
    rw [List.foldl_cons, ih, applySub_snd_mem]
    constructor
    · rintro ((h | ⟨hf, hx⟩) | ⟨sub, hs, hf, hx⟩)
      · exact Or.inl h
      · exact Or.inr ⟨s, List.mem_cons_self _ _, hf, hx⟩
      · exact Or.inr ⟨sub, List.mem_cons_of_mem _ hs, hf, hx⟩
    · rintro (h | ⟨sub, hs, hf, hx⟩)
      · exact Or.inl (Or.inl h)
      · rcases List.mem_cons.mp hs with rfl | hs'
        · exact Or.inl (Or.inr ⟨hf, hx⟩)
        · exact Or.inr ⟨sub, hs', hf, hx⟩

/-- Membership in the hierarchical tags produced by a whole rule table. -/
theorem applyRules_fst_mem (rules : List (List Char × List (List Char × Matcher)))
    (card : CardData) (oracle : List Char) (acc : List HTag × List (List Char)) (t : HTag) :
    t ∈ (rules.foldl (applyCat card oracle) acc).1 ↔
      t ∈ acc.1 ∨ ∃ cat ∈ rules, ∃ sub ∈ cat.2, matcherFires sub.2 card oracle = true
        ∧ t = ⟨[cat.1, sub.1], matcherConfidence sub.2⟩ := by
  induction rules generalizing acc with
  | nil => simp
  | cons c rest ih =>
    rw [List.foldl_cons, ih, applyCat, applyCat_fst_mem]
    constructor
    · rintro ((h | ⟨sub, hs, hf, hx⟩) | ⟨cat, hc, sub, hs, hf, hx⟩)
      · exact Or.inl h
      · exact Or.inr ⟨c, List.mem_cons_self _ _, sub, hs, hf, hx⟩
      · exact Or.inr ⟨cat, List.mem_cons_of_mem _ hc, sub, hs, hf, hx⟩
    · rintro (h | ⟨cat, hc, sub, hs, hf, hx⟩)
      · exact Or.inl (Or.inl h)
      · rcases List.mem_cons.mp hc with rfl | hc'
        · exact Or.inl (Or.inr ⟨sub, hs, hf, hx⟩)
        · exact Or.inr ⟨cat, hc', sub, hs, hf, hx⟩

/-- Membership in the flattened tags produced by a whole rule table. -/
theorem applyRules_snd_mem (rules : List (List Char × List (List Char × Matcher)))
    (card : CardData) (oracle : List Char) (acc : List HTag × List (List Char)) (x : List Char) :
    x ∈ (rules.foldl (applyCat card oracle) acc).2 ↔
      x ∈ acc.2 ∨ ∃ cat ∈ rules, ∃ sub ∈ cat.2, matcherFires sub.2 card oracle = true
        ∧ (x = cat.1 ∨ x = sub.1) := by
  induction rules generalizing acc with
  | nil => simp
  | cons c rest ih =>
    rw [List.foldl_cons, ih, applyCat, applyCat_snd_mem]
    constructor
    · rintro ((h | ⟨sub, hs, hf, hx⟩) | ⟨cat, hc, sub, hs, hf, hx⟩)
      · exact Or.inl h
      · exact Or.inr ⟨c, List.mem_cons_self _ _, sub, hs, hf, hx⟩
      · exact Or.inr ⟨cat, List.mem_cons_of_mem _ hc, sub, hs, hf, hx⟩
    · rintro (h | ⟨cat, hc, sub, hs, hf, hx⟩)
      · exact Or.inl (Or.inl h)
      · rcases List.mem_cons.mp hc with rfl | hc'
        · exact Or.inl (Or.inr ⟨sub, hs, hf, hx⟩)
        · exact Or.inr ⟨cat, hc', sub, hs, hf, hx⟩

/-- C10: when the (defaulted) cmc is at most 2, the conversion always carries
the tempo / low_cost_interaction hierarchical tag at confidence 0.8, both of
its names in the flattened tags, and the aggro archetype hint, whatever the
oracle text and type line are. -/
theorem low_cmc_tags (data : ScryfallData) (now : List Char)
    (h : data.cmc.getD 0 ≤ 2) :
    (⟨[str "tempo", str "low_cost_interaction"], 4 / 5⟩ : HTag)
        ∈ (convert_scryfall_to_ir data now).strategic_tags.hierarchical_tags
    ∧ str "tempo" ∈ (convert_scryfall_to_ir data now).strategic_tags.flattened_tags
    ∧ str "low_cost_interaction"
        ∈ (convert_scryfall_to_ir data now).strategic_tags.flattened_tags
    ∧ str "aggro" ∈ (convert_scryfall_to_ir data now).strategic_tags.archetype_hints := by
  have hfire : matcherFires
      (Matcher.predicate (fun card => decide (card.card_metadata.cmc ≤ 2)))
      ⟨extract_metadata data, parse_abilities data⟩
      (lower (extract_metadata data).oracle_text) = true := by
    simpa [matcherFires] using decide_eq_true h
  have hcat : (str "tempo",
      [(str "low_cost_interaction",
        Matcher.predicate (fun card => decide (card.card_metadata.cmc ≤ 2))),
       (str "bounce", Matcher.substrings [str "return", str "bounce"])]) ∈ TAG_RULES :=
    List.mem_cons_of_mem _ (List.mem_cons_self _ _)
  have hsub : ((str "low_cost_interaction",
      Matcher.predicate (fun card => decide (card.card_metadata.cmc ≤ 2))) :
        List Char × Matcher) ∈
      [(str "low_cost_interaction",
        Matcher.predicate (fun card => decide (card.card_metadata.cmc ≤ 2))),
       (str "bounce", Matcher.substrings [str "return", str "bounce"])] :=
    List.mem_cons_self _ _
  refine ⟨?_, ?_, ?_, ?_⟩
  · show _ ∈ (applyTagRules _ _).1
    rw [applyTagRules, applyRules, applyRules_fst_mem]
    exact Or.inr ⟨(str "tempo",
      [(str "low_cost_interaction",
        Matcher.predicate (fun card => decide (card.card_metadata.cmc ≤ 2))),
       (str "bounce", Matcher.substrings [str "return", str "bounce"])]),
      hcat, _, hsub, hfire, rfl⟩
  · show _ ∈ (applyTagRules _ _).2
    rw [applyTagRules, applyRules, applyRules_snd_mem]
    exact Or.inr ⟨(str "tempo",
      [(str "low_cost_interaction",
        Matcher.predicate (fun card => decide (card.card_metadata.cmc ≤ 2))),
       (str "bounce", Matcher.substrings [str "return", str "bounce"])]),
      hcat, _, hsub, hfire, Or.inl rfl⟩
  · show _ ∈ (applyTagRules _ _).2
    rw [applyTagRules, applyRules, applyRules_snd_mem]
    exact Or.inr ⟨(str "tempo",
      [(str "low_cost_interaction",
        Matcher.predicate (fun card => decide (card.card_metadata.cmc ≤ 2))),
       (str "bounce", Matcher.substrings [str "return", str "bounce"])]),
      hcat, _, hsub, hfire, Or.inr rfl⟩
  · show _ ∈ generate_archetype_hints _
    have h2 : (extract_metadata data).cmc ≤ 2 := h
    simp [generate_archetype_hints, h2]

/-- Witness for C10 at the Lightning Bolt record (cmc 1). -/
theorem low_cmc_tags_witness :
    (⟨[str "tempo", str "low_cost_interaction"], 4 / 5⟩ : HTag)
        ∈ (convert_scryfall_to_ir lightningBolt []).strategic_tags.hierarchical_tags
    ∧ str "tempo" ∈ (convert_scryfall_to_ir lightningBolt []).strategic_tags.flattened_tags
    ∧ str "low_cost_interaction"
        ∈ (convert_scryfall_to_ir lightningBolt []).strategic_tags.flattened_tags
    ∧ str "aggro" ∈ (convert_scryfall_to_ir lightningBolt []).strategic_tags.archetype_hints :=
  low_cmc_tags lightningBolt [] (by decide)

/-- C8: a record whose oracle text is absent or empty yields no parsed
abilities, and every flattened tag comes from the single metadata-predicate
rule (tempo / low_cost_interaction) — never from a text substring pattern. -/
theorem empty_oracle_tags (data : ScryfallData) (now : List Char)
    (h : data.oracle_text.getD [] = []) :
    (convert_scryfall_to_ir data now).parsed_abilities = []
    ∧ ∀ x ∈ (convert_scryfall_to_ir data now).strategic_tags.flattened_tags,
        x = str "tempo" ∨ x = str "low_cost_interaction" := by
  have hor : (extract_metadata data).oracle_text = [] := h
  constructor
  · show parse_abilities data = []
    simp [parse_abilities, h]
  · intro x hx
    have hx' : x ∈ (applyTagRules ⟨extract_metadata data, parse_abilities data⟩
        (lower (extract_metadata data).oracle_text)).2 := hx
    rw [applyTagRules, applyRules, applyRules_snd_mem] at hx'
    rcases hx' with hx' | ⟨cat, hcat, sub, hsub, hfire, hx'⟩
    · simp at hx'
    · rw [hor] at hfire
      simp only [TAG_RULES, List.mem_cons, List.not_mem_nil, or_false] at hcat
      rcases hcat with rfl | rfl | rfl | rfl <;>
        simp only [List.mem_cons, List.not_mem_nil, or_false] at hsub
      · rcases hsub with rfl | rfl | rfl <;>
          (simp only [matcherFires] at hfire; exact absurd hfire (by decide))
      · rcases hsub with rfl | rfl
        · rcases hx' with hx' | hx'
          · exact Or.inl hx'
          · exact Or.inr hx'
        · simp only [matcherFires] at hfire
          exact absurd hfire (by decide)
      · rcases hsub with rfl | rfl <;>
          (simp only [matcherFires] at hfire; exact absurd hfire (by decide))
      · rcases hsub with rfl
        simp only [matcherFires] at hfire
        exact absurd hfire (by decide)

/-- Witness for C8 at the all-absent record. -/
theorem empty_oracle_tags_witness :
    (convert_scryfall_to_ir emptyCard []).parsed_abilities = [] :=
  (empty_oracle_tags emptyCard [] (by decide)).1

/-- A non-empty pattern is never a prefix of the empty list. -/
theorem isPrefixOf_nil_false (w : List Char) (hw : w ≠ []) : w.isPrefixOf ([] : List Char) = false := by
  cases w with
  | nil => exact absurd rfl hw
  | cons c cs => rfl

/-- Every token captured by the mana scan is a non-empty run of mana-class
characters. -/
theorem manaFindallAux_tokens (fuel : Nat) :
    ∀ (s : List Char), ∀ tok ∈ manaFindallAux fuel s, tok ≠ [] ∧ tok.all isManaChar = true := by
  induction fuel with
  | zero => intro s tok h; simp [manaFindallAux] at h
  | succ n ih =>
    intro s tok h
    cases s with
    | nil => simp [manaFindallAux] at h
    | cons c rest =>
      rw [manaFindallAux] at h
      split at h
      · split at h
        · exact ih rest tok h
        · rename_i hrun
          split at h
          · rcases List.mem_cons.mp h with rfl | h2
            · refine ⟨?_, ?_⟩
              · intro hnil
                rw [hnil] at hrun
                exact hrun rfl
              · rw [List.all_eq_true]
                intro x hx
                exact List.mem_takeWhile_imp hx
            · exact ih _ tok h2
          · exact ih rest tok h
      · exact ih rest tok h



/-- The trailing-boundary test in terms of the first remaining character. -/
theorem boundaryAfter_iff (l : List Char) :
    boundaryAfter l = true ↔ ∀ c, l.head? = some c → isWordChar c = false := by
  cases l with
  | nil => simp [boundaryAfter]
  | cons x xs => simp [boundaryAfter]

/-- The whole-word scanner finds a match exactly when some position of the
remaining text carries the word with both boundaries; position 0 uses the
carried previous character. -/
theorem hasWordAux_iff (w : List Char) (hw : w ≠ []) (s : List Char) (prev : Option Char) :
    hasWordAux w prev s = true ↔
      ∃ i, w.isPrefixOf (s.drop i) = true
        ∧ boundaryAfter (s.drop (i + w.length)) = true
        ∧ ((i = 0 ∧ boundaryBefore prev = true)
           ∨ (∃ k c, i = k + 1 ∧ s[k]? = some c ∧ isWordChar c = false)) := by
  induction s generalizing prev with
  | nil =>
    simp [hasWordAux, List.drop_nil, isPrefixOf_nil_false w hw]
  | cons c rest ih =>
    rw [hasWordAux, Bool.or_eq_true, Bool.and_eq_true, ih (some c)]
    constructor
    · rintro (⟨hbp, hword⟩ | ⟨i, hpre, haft, hcond⟩)
      · rw [wordHere, Bool.and_eq_true] at hword
        exact ⟨0, hword.1, by simpa using hword.2, Or.inl ⟨rfl, hbp⟩⟩
      · refine ⟨i + 1, ?_, ?_, ?_⟩
        · simpa [List.drop_succ_cons] using hpre
        · have harith : i + 1 + w.length = (i + w.length) + 1 := by omega
          rw [harith, List.drop_succ_cons]
          exact haft
        · rcases hcond with ⟨rfl, hbc⟩ | ⟨k, c2, rfl, hk, hw2⟩
          · refine Or.inr ⟨0, c, rfl, by simp, ?_⟩
            simpa [boundaryBefore] using hbc
          · exact Or.inr ⟨k + 1, c2, rfl, by simpa using hk, hw2⟩
    · rintro ⟨i, hpre, haft, hcond⟩
      cases i with
      | zero =>
        rcases hcond with ⟨_, hbp⟩ | ⟨k, c2, hik, _, _⟩
        · refine Or.inl ⟨hbp, ?_⟩
          rw [wordHere, Bool.and_eq_true]
          exact ⟨by simpa using hpre, by simpa using haft⟩
        · exact absurd hik (by omega)
      | succ i2 =>
        refine Or.inr ⟨i2, by simpa [List.drop_succ_cons] using hpre, ?_, ?_⟩
        · have harith : i2 + 1 + w.length = (i2 + w.length) + 1 := by omega
          rw [harith, List.drop_succ_cons] at haft
          exact haft
        · rcases hcond with ⟨hik, _⟩ | ⟨k, c2, hik, hk, hw2⟩
          · exact absurd hik (by omega)
          · have hki : k = i2 := by omega
            subst hki
            cases k with
            | zero =>
              have hc2 : c2 = c := by simpa using hk.symm
              subst hc2
              exact Or.inl ⟨rfl, by simpa [boundaryBefore] using hw2⟩
            | succ j =>
              exact Or.inr ⟨j, c2, rfl, by simpa using hk, hw2⟩

/-- The whole-word search agrees with the declarative word-boundary 
specification. -/
theorem hasWord_iff (w : List Char) (hw : w ≠ []) (s : List Char) :
    hasWord w s = true ↔ ∃ i, wordMatchAt s w i := by
  rw [hasWord, hasWordAux_iff w hw]
  constructor
  · rintro ⟨i, hpre, haft, hcond⟩
    refine ⟨i, hpre, ?_, ?_⟩
    · rcases hcond with ⟨rfl, _⟩ | ⟨k, c, rfl, hk, hw2⟩
      · exact Or.inl rfl
      · exact Or.inr ⟨c, by simpa using hk, hw2⟩
    · intro c hc
      rw [boundaryAfter_iff] at haft
      exact haft c (by rw [List.head?_drop]; exact hc)
  · rintro ⟨i, hpre, hbefore, hafter⟩
    refine ⟨i, hpre, ?_, ?_⟩
    · rw [boundaryAfter_iff]
      intro c hc
      exact hafter c (by rw [← List.head?_drop]; exact hc)
    · cases i with
      | zero => exact Or.inl ⟨rfl, rfl⟩
      | succ k =>
        rcases hbefore with h0 | ⟨c, hc, hw2⟩
        · exact absurd h0 (by omega)
        · exact Or.inr ⟨k, c, rfl, by simpa using hc, hw2⟩

/-- The tap-cost regex test agrees with the declarative whole-word
condition of the specification. -/
theorem tapSearch_iff (text : List Char) :
    tapSearch text = true ↔ hasTapWordSpec text := by
  rw [tapSearch, Bool.or_eq_true, hasWord_iff _ (by decide), hasWord_iff _ (by decide),
    hasTapWordSpec, exists_or]

/-- Mana cost entries never count as tap entries. -/
theorem mana_filter_tap (l : List (List Char)) :
    (l.map (fun m => (⟨str "mana", '{' :: m ++ ['}']⟩ : Cost))).filter
        (fun q => q.kind == str "tap") = [] := by
  induction l with
  | nil => rfl
  | cons x xs ih =>
    have hx : ((⟨str "mana", '{' :: x ++ ['}']⟩ : Cost).kind == str "tap") = false := rfl
    simp [List.filter_cons, hx, ih]
    intro a ha
    decide

/-- C7: the cost extraction emits one mana entry per captured brace token,
in order with duplicates preserved (each token a non-empty run of W/U/B/R/G
letters or digits), and then at most one tap entry, appended last, present
exactly when the text contains `tap` or `t` as a whole word
(case-insensitive, word-boundary match). -/
theorem costs_structure (text : List Char) :
    extract_costs text
        = (manaFindall text).map (fun m => ⟨str "mana", '{' :: m ++ ['}']⟩)
          ++ (if tapSearch text then [⟨str "tap", str "Tap"⟩] else [])
    ∧ (∀ tok ∈ manaFindall text, tok ≠ [] ∧ tok.all isManaChar = true)
    ∧ (tapSearch text = true ↔ hasTapWordSpec text)
    ∧ ((extract_costs text).filter (fun q => q.kind == str "tap")).length
        = (if tapSearch text then 1 else 0)
    ∧ (tapSearch text = true →
        (extract_costs text).getLast? = some ⟨str "tap", str "Tap"⟩) := by
  refine ⟨rfl, manaFindallAux_tokens _ _, tapSearch_iff text, ?_, ?_⟩
  · cases htap : tapSearch text with
    | true =>
      rw [extract_costs, htap, if_pos rfl, List.filter_append, mana_filter_tap]
      rfl
    | false =>
      rw [extract_costs, htap, if_neg (by simp), List.append_nil, mana_filter_tap]
      rfl
  · intro htap
    rw [extract_costs, htap, if_pos rfl]
    exact List.getLast?_concat _

/-- Witness for C7 on a text with mana symbols and a whole-word T. -/
theorem costs_structure_witness :
    (extract_costs (str "{T}: Add {G}.")).getLast? = some ⟨str "tap", str "Tap"⟩ :=
  (costs_structure (str "{T}: Add {G}.")).2.2.2.2 (by decide)

/-- A position returned by the greedy backtracking search is in range, is a
match, and is the last match within range. -/
theorem lastPrefixPos_sound (b tail : List Char) (n j : Nat)
    (h : lastPrefixPos b tail n = some j) :
    j ≤ n ∧ b.isPrefixOf (tail.drop j) = true ∧
      ∀ j2, j < j2 → j2 ≤ n → b.isPrefixOf (tail.drop j2) = false := by
  induction n with
  | zero =>
    rw [lastPrefixPos] at h
    split at h
    · rename_i hpre
      cases h
      exact ⟨Nat.le_refl 0, by simpa using hpre, fun j2 h1 h2 => absurd (Nat.lt_of_lt_of_le h1 h2) (Nat.lt_irrefl 0)⟩
    · cases h
  | succ n ih =>
    rw [lastPrefixPos] at h
    split at h
    · rename_i hpre
      cases h
      refine ⟨Nat.le_refl _, hpre, fun j2 h1 h2 => absurd (Nat.lt_of_lt_of_le h1 h2) (Nat.lt_irrefl _)⟩
    · rename_i hpre
      obtain ⟨hle, hp, hmax⟩ := ih h
      refine ⟨Nat.le_succ_of_le hle, hp, fun j2 h1 h2 => ?_⟩
      rcases Nat.lt_or_ge j2 (n + 1) with hlt | hge
      · exact hmax j2 h1 (Nat.lt_succ_iff.mp hlt)
      · have : j2 = n + 1 := Nat.le_antisymm h2 hge
        subst this
        exact eq_false_of_ne_true hpre

/-- When the greedy backtracking search fails, no position in range is a
match. -/
theorem lastPrefixPos_none (b tail : List Char) (n : Nat)
    (h : lastPrefixPos b tail n = none) :
    ∀ j, j ≤ n → b.isPrefixOf (tail.drop j) = false := by
  induction n with
  | zero =>
    rw [lastPrefixPos] at h
    split at h
    · cases h
    · rename_i hpre
      intro j hj
      have : j = 0 := Nat.le_zero.mp hj
      subst this
      simpa using eq_false_of_ne_true hpre
  | succ n ih =>
    rw [lastPrefixPos] at h
    split at h
    · cases h
    · rename_i hpre
      intro j hj
      rcases Nat.lt_or_ge j (n + 1) with hlt | hge
      · exact ih h j (Nat.lt_succ_iff.mp hlt)
      · have : j = n + 1 := Nat.le_antisymm hj hge
        subst this
        exact eq_false_of_ne_true hpre

/-- The `.*` window: a prefix length fits inside the first line exactly when
none of its characters is a newline. -/
theorem takeWhile_window (tail : List Char) :
    ∀ j, j ≤ tail.length →
      (j ≤ (tail.takeWhile (fun c => !(c == '\n'))).length ↔
        ∀ k, k < j → tail[k]? ≠ some '\n') := by
  induction tail with
  | nil =>
    intro j hj
    have : j = 0 := Nat.le_zero.mp hj
    subst this
    simp
  | cons c rest ih =>
    intro j hj
    cases j with
    | zero => simp
    | succ j2 =>
      by_cases hc : c = '\n'
      · subst hc
        simp only [List.takeWhile]
        constructor
        · intro hlen
          exact absurd hlen (by simp)
        · intro hall
          exact absurd (hall 0 (Nat.succ_pos _)) (by simp)
      · have hcb : (!(c == '\n')) = true := by simp [hc]
        simp only [List.takeWhile, hcb]
        constructor
        · intro hlen k hk
          cases k with
          | zero => simp [hc]
          | succ k2 =>
            have hlen2 : j2 ≤ (rest.takeWhile (fun c => !(c == '\n'))).length := by
              simpa using hlen
            simpa using (ih j2 (by simpa using hj)).mp hlen2 k2 (by omega)
        · intro hall
          have : ∀ k, k < j2 → rest[k]? ≠ some '\n' := by
            intro k hk
            exact fun hcon => hall (k + 1) (by omega) (by simpa using hcon)
          have := (ih j2 (by simpa using hj)).mpr this
          simpa using Nat.succ_le_succ this



/-- A non-empty pattern matching at a position forces the position to lie
inside the list. -/
theorem prefix_lt_length (b l : List Char) (hb : b ≠ []) (j : Nat)
    (h : b.isPrefixOf (l.drop j) = true) : j < l.length := by
  by_contra hge
  rw [List.drop_eq_nil_of_le (Nat.le_of_not_lt hge)] at h
  rw [isPrefixOf_nil_false b hb] at h
  cases h

/-- Composing two drops. -/
theorem drop_then_drop (l : List Char) (n m : Nat) :
    (l.drop n).drop m = l.drop (n + m) := by
  rw [List.drop_drop]

/-- A match anchored at the start of the text is a span whose `b`-position is
the greedy maximum among all anchored spans. -/
theorem greedyMatchHere_sound (a b s m : List Char) (hb : b ≠ [])
    (h : greedyMatchHere a b s = some m) :
    ∃ j, matchSpanAt a b s 0 j
      ∧ (∀ j2, matchSpanAt a b s 0 j2 → j2 ≤ j)
      ∧ m = s.take (j + b.length) := by
  simp only [greedyMatchHere] at h
  split at h
  case isTrue hpre =>
    split at h
    case h_1 joff hlast =>
      cases h
      obtain ⟨hle, hpj, hmax⟩ := lastPrefixPos_sound _ _ _ _ hlast
      have hjlen : joff < (s.drop a.length).length :=
        prefix_lt_length b _ hb joff hpj
      have hwindow := (takeWhile_window (s.drop a.length) joff (Nat.le_of_lt hjlen)).mp hle
      rw [drop_then_drop] at hpj
      refine ⟨a.length + joff, ⟨by simpa using hpre, by omega, hpj, ?_⟩, ?_, ?_⟩
      · intro k hk1 hk2
        have hk3 : k - a.length < joff := by omega
        have hw := hwindow (k - a.length) hk3
        rw [List.getElem?_drop] at hw
        have hke : a.length + (k - a.length) = k := by omega
        rw [hke] at hw
        exact hw
      · rintro j2 ⟨hpre2, hlej2, hbj2, hnl2⟩
        have hbj2d : b.isPrefixOf ((s.drop a.length).drop (j2 - a.length)) = true := by
          rw [drop_then_drop]
          have heq2 : a.length + (j2 - a.length) = j2 := by omega
          rw [heq2]
          exact hbj2
        have hj2len : j2 - a.length < (s.drop a.length).length :=
          prefix_lt_length b _ hb _ hbj2d
        have hwin2 : j2 - a.length ≤
            ((s.drop a.length).takeWhile (fun c => !(c == '\n'))).length := by
          refine (takeWhile_window (s.drop a.length) (j2 - a.length)
            (Nat.le_of_lt hj2len)).mpr ?_
          intro k hk
          rw [List.getElem?_drop]
          exact hnl2 (a.length + k) (by omega) (by omega)
        by_contra hgt
        have hlt : joff < j2 - a.length := by omega
        have hfalse := hmax (j2 - a.length) hlt hwin2
        rw [hfalse] at hbj2d
        cases hbj2d
      · rfl
    case h_2 hlast => cases h
  case isFalse hpre => cases h

/-- When the anchored match fails, no anchored span exists. -/
theorem greedyMatchHere_none (a b s : List Char) (hb : b ≠ [])
    (h : greedyMatchHere a b s = none) (j : Nat) : ¬ matchSpanAt a b s 0 j := by
  rintro ⟨hpre2, hlej, hbj, hnl⟩
  simp only [greedyMatchHere] at h
  split at h
  case isTrue hpre =>
    split at h
    case h_1 joff hlast => cases h
    case h_2 hlast =>
      have hbjd : b.isPrefixOf ((s.drop a.length).drop (j - a.length)) = true := by
        rw [drop_then_drop]
        have heq2 : a.length + (j - a.length) = j := by omega
        rw [heq2]
        exact hbj
      have hjlen : j - a.length < (s.drop a.length).length :=
        prefix_lt_length b _ hb _ hbjd
      have hwin : j - a.length ≤
          ((s.drop a.length).takeWhile (fun c => !(c == '\n'))).length := by
        refine (takeWhile_window (s.drop a.length) (j - a.length)
          (Nat.le_of_lt hjlen)).mpr ?_
        intro k hk
        rw [List.getElem?_drop]
        exact hnl (a.length + k) (by omega) (by omega)
      have hfalse := lastPrefixPos_none _ _ _ hlast (j - a.length) hwin
      rw [hfalse] at hbjd
      cases hbjd
  case isFalse hpre => exact hpre (by simpa using hpre2)

/-- Shifting a span across one leading character. -/
theorem matchSpanAt_cons (a b : List Char) (c : Char) (rest : List Char) (i j : Nat) :
    matchSpanAt a b (c :: rest) (i + 1) (j + 1) ↔ matchSpanAt a b rest i j := by
  unfold matchSpanAt
  constructor
  · rintro ⟨hpre, hle, hbj, hnl⟩
    refine ⟨by simpa using hpre, by omega, by simpa using hbj, ?_⟩
    intro k hk1 hk2
    have := hnl (k + 1) (by omega) (by omega)
    simpa using this
  · rintro ⟨hpre, hle, hbj, hnl⟩
    refine ⟨by simpa using hpre, by omega, by simpa using hbj, ?_⟩
    intro k hk1 hk2
    cases k with
    | zero => omega
    | succ k2 =>
      have := hnl k2 (by omega) (by omega)
      simpa using this

/-- No span with a non-empty `b` exists in the empty text. -/
theorem matchSpanAt_nil (a b : List Char) (hb : b ≠ []) (i j : Nat) :
    ¬ matchSpanAt a b [] i j := by
  rintro ⟨_, _, hbj, _⟩
  rw [List.drop_nil, isPrefixOf_nil_false b hb] at hbj
  cases hbj

/-- The scanning search returns exactly the leftmost greedy match of the
pattern. -/
theorem searchDotStar_sound (a b : List Char) (hb : b ≠ []) :
    ∀ (s m : List Char), searchDotStar a b s = some m → firstGreedyMatch a b s m := by
  intro s
  induction s with
  | nil =>
    intro m h
    rw [searchDotStar] at h
    obtain ⟨j, hspan, _, _⟩ := greedyMatchHere_sound a b [] m hb h
    exact absurd hspan (matchSpanAt_nil a b hb 0 j)
  | cons c rest ih =>
    intro m h
    rw [searchDotStar] at h
    split at h
    case h_1 m0 hg =>
      cases h
      obtain ⟨j, hspan, hmax, hm⟩ := greedyMatchHere_sound a b (c :: rest) m hb hg
      refine ⟨0, j, hspan, by simpa using hm, fun i2 j2 _ => Nat.zero_le i2, hmax⟩
    case h_2 hg =>
      obtain ⟨i, j, hspan, hm, hmin, hmax⟩ := ih m h
      refine ⟨i + 1, j + 1, (matchSpanAt_cons a b c rest i j).mpr hspan, ?_, ?_, ?_⟩
      · rw [List.drop_succ_cons]
        have harith : j + 1 + b.length - (i + 1) = j + b.length - i := by omega
        rw [harith]
        exact hm
      · rintro i2 j2 hms
        cases i2 with
        | zero => exact absurd hms (greedyMatchHere_none a b (c :: rest) hb hg j2)
        | succ i3 =>
          cases j2 with
          | zero =>
            obtain ⟨_, hle2, _, _⟩ := hms
            omega
          | succ j3 =>
            have := hmin i3 j3 ((matchSpanAt_cons a b c rest i3 j3).mp hms)
            omega
      · rintro j2 hms
        cases j2 with
        | zero =>
          obtain ⟨_, hle2, _, _⟩ := hms
          omega
        | succ j3 =>
          have := hmax j3 ((matchSpanAt_cons a b c rest i j3).mp hms)
          omega

/-- When the scanning search fails, no span exists at any position. -/
theorem searchDotStar_none (a b : List Char) (hb : b ≠ []) :
    ∀ s, searchDotStar a b s = none → ∀ i j, ¬ matchSpanAt a b s i j := by
  intro s
  induction s with
  | nil => exact fun _ i j => matchSpanAt_nil a b hb i j
  | cons c rest ih =>
    intro h i j hms
    rw [searchDotStar] at h
    split at h
    case h_1 m0 hg => cases h
    case h_2 hg =>
      cases i with
      | zero => exact greedyMatchHere_none a b (c :: rest) hb hg j hms
      | succ i2 =>
        cases j with
        | zero =>
          obtain ⟨_, hle2, _, _⟩ := hms
          omega
        | succ j2 =>
          exact ih h i2 j2 ((matchSpanAt_cons a b c rest i2 j2).mp hms)

/-- C6: the trigger extraction tests its three templates independently; the
result has at most three entries, each template contributes at most one entry,
an entry for a greedy template is present exactly when the template has a
match and its condition is the leftmost greedy matched span, and an entry for
the literal template is present exactly when the literal occurs, with the
literal itself as condition. -/
theorem triggers_first_match (text : List Char) :
    (extract_triggers text).length ≤ 3
    ∧ ((∃ e ∈ extract_triggers text, e.timing = str "when") ↔
        ∃ m, firstGreedyMatch (str "when ") (str " enters") (lower text) m)
    ∧ (∀ e ∈ extract_triggers text, e.timing = str "when" →
        firstGreedyMatch (str "when ") (str " enters") (lower text) e.condition)
    ∧ ((extract_triggers text).filter (fun e => e.timing == str "when")).length ≤ 1
    ∧ ((∃ e ∈ extract_triggers text, e.timing = str "whenever") ↔
        ∃ m, firstGreedyMatch (str "whenever ") (str " dies") (lower text) m)
    ∧ (∀ e ∈ extract_triggers text, e.timing = str "whenever" →
        firstGreedyMatch (str "whenever ") (str " dies") (lower text) e.condition)
    ∧ ((extract_triggers text).filter (fun e => e.timing == str "whenever")).length ≤ 1
    ∧ ((∃ e ∈ extract_triggers text, e.timing = str "at") ↔
        containsSub (str "at the beginning") (lower text) = true)
    ∧ (∀ e ∈ extract_triggers text, e.timing = str "at" →
        e.condition = str "at the beginning")
    ∧ ((extract_triggers text).filter (fun e => e.timing == str "at")).length ≤ 1 := by
  have hb1 : (str " enters") ≠ [] := by decide
  have hb2 : (str " dies") ≠ [] := by decide
  have hwhen : ∀ e ∈ extract_triggers text, e.timing = str "when" →
      firstGreedyMatch (str "when ") (str " enters") (lower text) e.condition := by
    intro e he ht
    rw [extract_triggers, List.mem_filterMap] at he
    obtain ⟨p, hp, hf⟩ := he
    simp only [trigger_patterns, List.mem_cons, List.not_mem_nil, or_false] at hp
    rcases hp with rfl | rfl | rfl <;>
      rcases Option.map_eq_some'.mp hf with ⟨m, hm, rfl⟩
    · exact searchDotStar_sound _ _ hb1 _ _ hm
    · exact absurd ht (show str "whenever" ≠ str "when" by decide)
    · exact absurd ht (show str "at" ≠ str "when" by decide)
  have hwhenever : ∀ e ∈ extract_triggers text, e.timing = str "whenever" →
      firstGreedyMatch (str "whenever ") (str " dies") (lower text) e.condition := by
    intro e he ht
    rw [extract_triggers, List.mem_filterMap] at he
    obtain ⟨p, hp, hf⟩ := he
    simp only [trigger_patterns, List.mem_cons, List.not_mem_nil, or_false] at hp
    rcases hp with rfl | rfl | rfl <;>
      rcases Option.map_eq_some'.mp hf with ⟨m, hm, rfl⟩
    · exact absurd ht (show str "when" ≠ str "whenever" by decide)
    · exact searchDotStar_sound _ _ hb2 _ _ hm
    · exact absurd ht (show str "at" ≠ str "whenever" by decide)
  have hat : ∀ e ∈ extract_triggers text, e.timing = str "at" →
      e.condition = str "at the beginning" := by
    intro e he ht
    rw [extract_triggers, List.mem_filterMap] at he
    obtain ⟨p, hp, hf⟩ := he
    simp only [trigger_patterns, List.mem_cons, List.not_mem_nil, or_false] at hp
    rcases hp with rfl | rfl | rfl <;>
      rcases Option.map_eq_some'.mp hf with ⟨m, hm, rfl⟩
    · exact absurd ht (show str "when" ≠ str "at" by decide)
    · exact absurd ht (show str "whenever" ≠ str "at" by decide)
    · rw [reSearch] at hm
      split at hm
      · cases hm
        rfl
      · cases hm
  have hlen : (extract_triggers text).length ≤ 3 := by
    rw [extract_triggers]
    exact le_trans (List.length_filterMap_le _ _) (by decide)
  have hiff1 : (∃ e ∈ extract_triggers text, e.timing = str "when") ↔
      ∃ m, firstGreedyMatch (str "when ") (str " enters") (lower text) m := by
    constructor
    · rintro ⟨e, he, ht⟩
      exact ⟨e.condition, hwhen e he ht⟩
    · rintro ⟨m, i, j, hspan, -, -, -⟩
      rcases hs : searchDotStar (str "when ") (str " enters") (lower text) with _ | m1
      · exact absurd hspan (searchDotStar_none _ _ hb1 _ hs i j)
      · refine ⟨⟨m1, str "when"⟩, ?_, rfl⟩
        rw [extract_triggers, List.mem_filterMap]
        refine ⟨(.dotStar (str "when ") (str " enters"), str "when"),
          List.mem_cons_self _ _, ?_⟩
        simp [reSearch, hs]
  have hiff2 : (∃ e ∈ extract_triggers text, e.timing = str "whenever") ↔
      ∃ m, firstGreedyMatch (str "whenever ") (str " dies") (lower text) m := by
    constructor
    · rintro ⟨e, he, ht⟩
      exact ⟨e.condition, hwhenever e he ht⟩
    · rintro ⟨m, i, j, hspan, -, -, -⟩
      rcases hs : searchDotStar (str "whenever ") (str " dies") (lower text) with _ | m2
      · exact absurd hspan (searchDotStar_none _ _ hb2 _ hs i j)
      · refine ⟨⟨m2, str "whenever"⟩, ?_, rfl⟩
        rw [extract_triggers, List.mem_filterMap]
        refine ⟨(.dotStar (str "whenever ") (str " dies"), str "whenever"),
          List.mem_cons_of_mem _ (List.mem_cons_self _ _), ?_⟩
        simp [reSearch, hs]
  have hiff3 : (∃ e ∈ extract_triggers text, e.timing = str "at") ↔
      containsSub (str "at the beginning") (lower text) = true := by
    constructor
    · rintro ⟨e, he, ht⟩
      rw [extract_triggers, List.mem_filterMap] at he
      obtain ⟨p, hp, hf⟩ := he
      simp only [trigger_patterns, List.mem_cons, List.not_mem_nil, or_false] at hp
      rcases hp with rfl | rfl | rfl <;>
        rcases Option.map_eq_some'.mp hf with ⟨m, hm, rfl⟩
      · exact absurd ht (show str "when" ≠ str "at" by decide)
      · exact absurd ht (show str "whenever" ≠ str "at" by decide)
      · rw [reSearch] at hm
        split at hm
        · rename_i hcon
          exact hcon
        · cases hm
    · intro hcon
      refine ⟨⟨str "at the beginning", str "at"⟩, ?_, rfl⟩
      rw [extract_triggers, List.mem_filterMap]
      refine ⟨(.literal (str "at the beginning"), str "at"),
        List.mem_cons_of_mem _ (List.mem_cons_of_mem _ (List.mem_cons_self _ _)), ?_⟩
      simp [reSearch, hcon]
  have hfilters :
      ((extract_triggers text).filter (fun e => e.timing == str "when")).length ≤ 1
      ∧ ((extract_triggers text).filter (fun e => e.timing == str "whenever")).length ≤ 1
      ∧ ((extract_triggers text).filter (fun e => e.timing == str "at")).length ≤ 1 := by
    rcases h1 : searchDotStar (str "when ") (str " enters") (lower text) with _ | m1 <;>
      rcases h2 : searchDotStar (str "whenever ") (str " dies") (lower text) with _ | m2 <;>
        cases h3 : containsSub (str "at the beginning") (lower text) <;>
          simp [extract_triggers, trigger_patterns, reSearch, h1, h2, h3, List.filter_cons,
            (show (str "when" == str "when") = true from rfl),
            (show (str "whenever" == str "when") = false from rfl),
            (show (str "at" == str "when") = false from rfl),
            (show (str "whenever" == str "whenever") = true from rfl),
            (show (str "when" == str "whenever") = false from rfl),
            (show (str "at" == str "whenever") = false from rfl),
            (show (str "at" == str "at") = true from rfl),
            (show (str "when" == str "at") = false from rfl),
            (show (str "whenever" == str "at") = false from rfl)]
  exact ⟨hlen, hiff1, hwhen, hfilters.1, hiff2, hwhenever, hfilters.2.1, hiff3, hat,
    hfilters.2.2⟩

/-- Witness for C6 on a text in which the first template matches twice; the
condition is the single greedy span from the first occurrence. -/
theorem triggers_first_match_witness :
    firstGreedyMatch (str "when ") (str " enters")
      (lower (str "When x enters when y enters"))
      (str "when x enters when y enters") :=
  (triggers_first_match (str "When x enters when y enters")).2.2.1
    ⟨str "when x enters when y enters", str "when"⟩ (by decide) (by decide)

end KarnAI
